import Mathlib

/-!
Verification of the `bep/debounce` Go library against its specification.

The repository contains two variants of the debouncer:

* the options-based variant (`New`, `WithMaxCalls`, `WithMaxWait`, `debouncer.add`,
  `callLimitReached`, `timeLimitReached`), guarded by a mutex, with a `*time.Timer`
  field re-armed on each submission;
* the older channel-based variant (`New` returning a debounced function together
  with quit/done channels, built on `debounceChan`).

We embed both shallowly.  For the options-based variant, instants and durations
are modelled as `Int` (Go's `time.Duration` and monotonic clock readings are
int64 nanoseconds; no claim depends on int64 wrap-around, which would need more
than 2^63 events or a 292-year run, so plain `Int` with the exact
`math.MaxInt64` sentinel is faithful).  Work functions `func()` are identified
by `Nat` tags; executing a function is recorded in an execution log.  Timers
created by `time.AfterFunc` are heap objects that outlive the `d.timer` field
pointing at the most recent one, so the model keeps the list of all timers ever
created, each with its deadline, its work tag, and whether it is still armed
(`active`); `Timer.Stop` clears `active`, and the runtime may deliver an armed
timer's callback at any instant `now ≥ deadline` (the `expire` event).  The
mutex serialises `add` calls and the code takes no lock in the timer callback
(the callback is just `f`), so a run of the system is a sequence of `add` and
`expire` events.
-/

/-- An instant of the monotonic clock, in nanoseconds. -/
abbrev Time := Int

/-- The constant `math.MaxInt64`, the sentinel used by `New` for "no wait limit". -/
def maxInt64 : Int := 9223372036854775807

/-- A `*time.Timer` created by `time.AfterFunc d.after f`: its deadline, the work
it will run, and whether it is still armed (not yet stopped and not yet fired). -/
structure TimerObj where
  deadline : Time
  work : Nat
  active : Bool
deriving DecidableEq

/-- The `debouncer` struct of the options-based variant (src/debounce.go lines
130-140).  `timer` is the index (into the list of all timers ever created) of
the timer most recently assigned to `d.timer`, or `none` when `d.timer == nil`. -/
structure Debouncer where
  after : Int
  timer : Option Nat
  calls : Int
  callsLimit : Int
  startWait : Time
  waitLimit : Int
deriving DecidableEq

/-- The whole system state: the `debouncer` struct, every timer object ever
created by `time.AfterFunc`, and the log of executed work `(instant, tag)`. -/
structure DState where
  deb : Debouncer
  timers : List TimerObj
  execs : List (Time × Nat)
deriving DecidableEq

/-- A functional option, `type Option func(*debouncer)`.  Only the two option
constructors exported by the package exist. -/
inductive DebOption
  | withMaxCalls (count : Int)
  | withMaxWait (limit : Int)
deriving DecidableEq

/-- Options `WithMaxCalls` / `WithMaxWait` (src/debounce.go lines 93-106): each option
overwrites the corresponding field of the `debouncer` struct. -/
def applyOption (d : Debouncer) : DebOption → Debouncer
  | .withMaxCalls count => { d with callsLimit := count }
  | .withMaxWait limit => { d with waitLimit := limit }

/-- Constructor `New(after, options...)` of the options-based variant (src/debounce.go lines
113-128), evaluated at construction instant `now`: `startWait = time.Now()`,
`waitLimit = math.MaxInt64`, `callsLimit = -1`, then the options are applied in
order.  No validation of `after` is performed by the source. -/
def New (after : Int) (options : List DebOption) (now : Time) : DState :=
  { deb := options.foldl applyOption
      { after := after, timer := none, calls := 0, callsLimit := -1,
        startWait := now, waitLimit := maxInt64 },
    timers := [], execs := [] }

/-- Predicate `callLimitReached` (src/debounce.go lines 142-144):
`d.callsLimit != -1 && d.calls >= d.callsLimit`. -/
def Debouncer.callLimitReached (d : Debouncer) : Bool :=
  d.callsLimit != -1 && decide (d.calls ≥ d.callsLimit)

/-- Predicate `timeLimitReached` (src/debounce.go lines 146-148):
`time.Since(d.startWait) >= d.waitLimit`, with `time.Since(t) = now - t`. -/
def Debouncer.timeLimitReached (d : Debouncer) (now : Time) : Bool :=
  decide (now - d.startWait ≥ d.waitLimit)

/-- The first statement of `add` (src/debounce.go lines 154-159): if a timer was
ever armed (`d.timer != nil`) increment `d.calls`, otherwise set it to 1. -/
def incCalls (s : DState) : Debouncer :=
  match s.deb.timer with
  | some _ => { s.deb with calls := s.deb.calls + 1 }
  | none => { s.deb with calls := 1 }

/-- Mark timer `i` as no longer armed (`d.timer.Stop()`).  Stopping a timer that
already fired or was already stopped is a no-op on our `active` flag. -/
def deactivate : List TimerObj → Nat → List TimerObj
  | [], _ => []
  | t :: ts, 0 => { t with active := false } :: ts
  | t :: ts, n + 1 => t :: deactivate ts n

/-- The effect of `d.timer.Stop()` in `add`: the timer currently pointed to by
`d.timer` (if any) is stopped; the list of timer objects is otherwise unchanged. -/
def stopPrior (s : DState) : List TimerObj :=
  match s.deb.timer with
  | some i => deactivate s.timers i
  | none => s.timers

/-- The condition of line 163 of src/debounce.go, evaluated (as in the source)
after the `calls` update and the `Stop` of lines 154-159:
`d.callLimitReached() || d.timeLimitReached()`. -/
def fireCond (s : DState) (now : Time) : Bool :=
  (incCalls s).callLimitReached || (incCalls s).timeLimitReached now

/-- Method `(*debouncer).add` (src/debounce.go lines 150-170) at instant `now` with
work `f`, under the mutex.  First `calls` is updated and the prior timer (if
any) stopped; then, if `callLimitReached() || timeLimitReached()`, the counters
are reset (`calls = 0`, `startWait = now`) and `f` runs synchronously (note that
`d.timer` is NOT cleared); otherwise a new timer `time.AfterFunc(d.after, f)` is
armed and `d.timer` is pointed at it. -/
def add (now : Time) (f : Nat) (s : DState) : DState :=
  if fireCond s now then
    { deb := { incCalls s with calls := 0, startWait := now },
      timers := stopPrior s,
      execs := s.execs ++ [(now, f)] }
  else
    { deb := { incCalls s with timer := some (stopPrior s).length },
      timers := stopPrior s ++
        [{ deadline := now + (incCalls s).after, work := f, active := true }],
      execs := s.execs }

/-- Delivery of the callback of timer `i` at instant `now`.  The Go runtime runs
the callback of `time.AfterFunc` only if the timer was not stopped first, and
only at an instant at or after its deadline; the callback of the source is just
`f` (src/debounce.go line 168), so it only runs the work: it touches neither
`d.calls`, nor `d.startWait`, nor `d.timer`.  A delivered timer is spent. -/
def expire (now : Time) (i : Nat) (s : DState) : DState :=
  match s.timers[i]? with
  | some tmr =>
    if tmr.active && decide (tmr.deadline ≤ now) then
      { s with timers := deactivate s.timers i,
               execs := s.execs ++ [(now, tmr.work)] }
    else s
  | none => s

/-- An event of the options-based debouncer system: a serialised `add` call, or
the runtime delivering the callback of timer `i`. -/
inductive Event
  | add (now : Time) (f : Nat)
  | expire (now : Time) (i : Nat)
deriving DecidableEq

/-- The instant at which an event happens. -/
def Event.time : Event → Time
  | .add now _ => now
  | .expire now _ => now

/-- One step of the system. -/
def step (s : DState) : Event → DState
  | .add now f => add now f s
  | .expire now i => expire now i s

/-- A run of the system: the events in order. -/
def run (s : DState) : List Event → DState
  | [] => s
  | e :: es => run (step s e) es

/-- The submissions contained in a list of events, in order. -/
def addOf : Event → Option (Time × Nat)
  | .add t f => some (t, f)
  | .expire _ _ => none

-- Basic sanity examples (concrete evaluations of the embedding).
example : (add 0 0 (New 10 [] 0)).timers = [⟨10, 0, true⟩] := by decide
example : (expire 10 0 (add 0 0 (New 10 [] 0))).execs = [(10, 0)] := by decide
example : (add 1 1 (add 0 0 (New 10 [] 0))).timers =
    [⟨10, 0, false⟩, ⟨11, 1, true⟩] := by decide
example : (add 0 7 (New 10 [DebOption.withMaxCalls 1] 0)).execs = [(0, 7)] := by
  decide

/-! ### Field bookkeeping for the `calls` update and the timer `Stop` -/

@[simp]
lemma incCalls_after (s : DState) : (incCalls s).after = s.deb.after := by
  unfold incCalls; cases s.deb.timer <;> rfl

@[simp]
lemma incCalls_callsLimit (s : DState) : (incCalls s).callsLimit = s.deb.callsLimit := by
  unfold incCalls; cases s.deb.timer <;> rfl

@[simp]
lemma incCalls_waitLimit (s : DState) : (incCalls s).waitLimit = s.deb.waitLimit := by
  unfold incCalls; cases s.deb.timer <;> rfl

@[simp]
lemma incCalls_startWait (s : DState) : (incCalls s).startWait = s.deb.startWait := by
  unfold incCalls; cases s.deb.timer <;> rfl

@[simp]
lemma incCalls_timer (s : DState) : (incCalls s).timer = s.deb.timer := by
  unfold incCalls; rcases h : s.deb.timer with _ | i <;> simp [h]

@[simp]
lemma deactivate_length (l : List TimerObj) : ∀ i, (deactivate l i).length = l.length := by
  induction l with
  | nil => intro i; rfl
  | cons t ts ih => intro i; cases i with
    | zero => rfl
    | succ n => simp [deactivate, ih n]

lemma deactivate_getElem? (l : List TimerObj) :
    ∀ i j, (deactivate l i)[j]? =
      if j = i then (l[j]?).map (fun t => { t with active := false }) else l[j]? := by
  induction l with
  | nil => intro i j; simp [deactivate]
  | cons t ts ih =>
    intro i j
    cases i with
    | zero =>
      cases j with
      | zero => simp [deactivate]
      | succ k => simp [deactivate]
    | succ m =>
      cases j with
      | zero => simp [deactivate]
      | succ k => simpa [deactivate] using ih m k

lemma getElem?_concat_len (l : List TimerObj) (x : TimerObj) :
    (l ++ [x])[l.length]? = some x := by
  induction l with
  | nil => rfl
  | cons h t ih => simp

/-! ### Reachability invariant of the options-based debouncer

`d.timer` is `nil` only before any timer was ever armed (neither the immediate
fire path nor the timer callback ever clears it), so `timer = none` implies
`calls = 0` and that no timer object exists yet.  Whenever `d.timer = some i`,
`i` is a valid index, and every timer object that is still armed is the one
`d.timer` points at (each `add` stops the prior timer before arming a new one). -/

/-- Timer index `j` holds no armed timer (it is out of range, stopped, or spent). -/
def Inactive (l : List TimerObj) (j : Nat) : Prop :=
  ∀ tmr, l[j]? = some tmr → tmr.active = false

/-- Well-formedness of the `d.timer` pointer relative to the timer objects. -/
def timerIdx (s : DState) : Prop :=
  match s.deb.timer with
  | none => s.deb.calls = 0 ∧ s.timers = []
  | some i => i < s.timers.length

instance (s : DState) : Decidable (timerIdx s) := by
  unfold timerIdx; cases s.deb.timer <;> exact inferInstance

/-- The reachability invariant of the options-based debouncer. -/
def DInv (s : DState) : Prop :=
  0 ≤ s.deb.calls ∧ timerIdx s ∧
  ∀ j, j < s.timers.length →
    (s.timers.getD j ⟨0, 0, false⟩).active = true → s.deb.timer = some j

instance (s : DState) : Decidable (DInv s) := by
  unfold DInv; exact inferInstance

/-- At any instant, at most one armed (outstanding) timer exists. -/
def atMostOneActive (s : DState) : Prop :=
  ∀ j k, j < s.timers.length → k < s.timers.length →
    (s.timers.getD j ⟨0, 0, false⟩).active = true →
    (s.timers.getD k ⟨0, 0, false⟩).active = true → j = k

example : DInv (New 10 [] 0) := by decide
example : DInv (add 0 0 (New 10 [] 0)) := by decide

/-! ### Bridges between `getElem?` and `getD`, and behaviour of `deactivate` -/

lemma getElem?_some_facts :
    ∀ (l : List TimerObj) (j : Nat) (tmr : TimerObj), l[j]? = some tmr →
      j < l.length ∧ l.getD j ⟨0, 0, false⟩ = tmr := by
  intro l
  induction l with
  | nil => intro j tmr h; simp at h
  | cons t ts ih =>
    intro j tmr h
    cases j with
    | zero => simp at h; simp [h]
    | succ k =>
      simp at h
      obtain ⟨h1, h2⟩ := ih k tmr h
      exact ⟨by simpa using h1, by simpa using h2⟩

lemma getD_getElem? :
    ∀ (l : List TimerObj) (j : Nat), j < l.length →
      l[j]? = some (l.getD j ⟨0, 0, false⟩) := by
  intro l
  induction l with
  | nil => intro j hj; simp at hj
  | cons t ts ih =>
    intro j hj
    cases j with
    | zero => simp
    | succ k => simpa using ih k (by simpa using hj)

lemma deactivate_getD (l : List TimerObj) :
    ∀ i j, j < l.length →
      (deactivate l i).getD j ⟨0, 0, false⟩ =
        if j = i then { l.getD j ⟨0, 0, false⟩ with active := false }
        else l.getD j ⟨0, 0, false⟩ := by
  induction l with
  | nil => intro i j hj; simp at hj
  | cons t ts ih =>
    intro i j hj
    cases i with
    | zero =>
      cases j with
      | zero => simp [deactivate]
      | succ k => simp [deactivate]
    | succ m =>
      cases j with
      | zero => simp [deactivate]
      | succ k => simpa [deactivate] using ih m k (by simpa using hj)

lemma append_getD_lt (l : List TimerObj) (x : TimerObj) :
    ∀ j, j < l.length → (l ++ [x]).getD j ⟨0, 0, false⟩ = l.getD j ⟨0, 0, false⟩ := by
  induction l with
  | nil => intro j hj; simp at hj
  | cons t ts ih =>
    intro j hj
    cases j with
    | zero => simp
    | succ k => simpa using ih k (by simpa using hj)

lemma append_getD_len (l : List TimerObj) (x : TimerObj) :
    (l ++ [x]).getD l.length ⟨0, 0, false⟩ = x := by
  induction l with
  | nil => simp
  | cons t ts ih => simp

/-! ### Branch lemmas for `add` and `fireCond` -/

lemma add_eq_fire (now : Time) (f : Nat) (s : DState) (h : fireCond s now = true) :
    add now f s =
      { deb := { incCalls s with calls := 0, startWait := now },
        timers := stopPrior s,
        execs := s.execs ++ [(now, f)] } := by
  simp [add, h]

lemma add_eq_arm (now : Time) (f : Nat) (s : DState) (h : fireCond s now = false) :
    add now f s =
      { deb := { incCalls s with timer := some (stopPrior s).length },
        timers := stopPrior s ++
          [{ deadline := now + (incCalls s).after, work := f, active := true }],
        execs := s.execs } := by
  simp [add, h]

lemma fireCond_of_time (s : DState) (now : Time)
    (h : s.deb.waitLimit ≤ now - s.deb.startWait) : fireCond s now = true := by
  simp [fireCond, Debouncer.timeLimitReached]
  exact Or.inr h

lemma fireCond_of_calls (s : DState) (now : Time)
    (hne : s.deb.callsLimit ≠ -1) (hle : s.deb.callsLimit ≤ (incCalls s).calls) :
    fireCond s now = true := by
  simp [fireCond, Debouncer.callLimitReached, bne_iff_ne]
  exact Or.inl ⟨hne, hle⟩

lemma fireCond_false (s : DState) (now : Time)
    (hc : s.deb.callsLimit = -1) (ht : now - s.deb.startWait < s.deb.waitLimit) :
    fireCond s now = false := by
  simp [fireCond, Debouncer.callLimitReached, Debouncer.timeLimitReached, hc]
  exact ht

/-! ### Fields of a freshly constructed debouncer -/

lemma foldl_applyOption_fields (opts : List DebOption) :
    ∀ d : Debouncer, (opts.foldl applyOption d).after = d.after ∧
      (opts.foldl applyOption d).timer = d.timer ∧
      (opts.foldl applyOption d).calls = d.calls ∧
      (opts.foldl applyOption d).startWait = d.startWait := by
  induction opts with
  | nil => intro d; exact ⟨rfl, rfl, rfl, rfl⟩
  | cons o os ih => intro d; cases o <;> simpa [applyOption] using ih _

@[simp]
lemma New_after (a t0 : Int) (opts : List DebOption) : (New a opts t0).deb.after = a :=
  (foldl_applyOption_fields opts _).1

@[simp]
lemma New_timer (a t0 : Int) (opts : List DebOption) : (New a opts t0).deb.timer = none :=
  (foldl_applyOption_fields opts _).2.1

@[simp]
lemma New_calls (a t0 : Int) (opts : List DebOption) : (New a opts t0).deb.calls = 0 :=
  (foldl_applyOption_fields opts _).2.2.1

@[simp]
lemma New_startWait (a t0 : Int) (opts : List DebOption) : (New a opts t0).deb.startWait = t0 :=
  (foldl_applyOption_fields opts _).2.2.2

@[simp]
lemma New_timers (a t0 : Int) (opts : List DebOption) : (New a opts t0).timers = [] := rfl

@[simp]
lemma New_execs (a t0 : Int) (opts : List DebOption) : (New a opts t0).execs = [] := rfl

/-! ### The invariant holds initially and is preserved by every event -/

lemma timerIdx_none_facts {s : DState} (h : DInv s) (hp : s.deb.timer = none) :
    s.deb.calls = 0 ∧ s.timers = [] := by
  have h2 := h.2.1
  unfold timerIdx at h2
  rw [hp] at h2
  exact h2

lemma timerIdx_some_lt {s : DState} {i : Nat} (h : DInv s) (hp : s.deb.timer = some i) :
    i < s.timers.length := by
  have h2 := h.2.1
  unfold timerIdx at h2
  rw [hp] at h2
  exact h2

lemma DInv_New (a t0 : Int) (opts : List DebOption) : DInv (New a opts t0) := by
  refine ⟨by simp, ?_, ?_⟩
  · unfold timerIdx
    rw [New_timer]
    exact ⟨New_calls a t0 opts, rfl⟩
  · intro j hj
    simp at hj

lemma DInv_add (now : Time) (f : Nat) (s : DState) (h : DInv s) : DInv (add now f s) := by
  rcases hp : s.deb.timer with _ | i
  · obtain ⟨hc0, htm⟩ := timerIdx_none_facts h hp
    have hstop : stopPrior s = [] := by unfold stopPrior; rw [hp]; exact htm
    have hinc : incCalls s = { s.deb with calls := 1 } := by unfold incCalls; rw [hp]
    by_cases hf : fireCond s now = true
    · rw [add_eq_fire now f s hf]
      refine ⟨by simp, ?_, ?_⟩
      · unfold timerIdx
        simp [hinc, hp, hstop]
      · intro j hj
        rw [hstop] at hj
        simp at hj
    · rw [add_eq_arm now f s (by simpa using hf)]
      refine ⟨by simp [hinc], ?_, ?_⟩
      · unfold timerIdx
        simp [hinc, hp, hstop]
      · intro j hj ha
        simp [hinc, hp, hstop] at hj ⊢
        omega
  · have hlt : i < s.timers.length := timerIdx_some_lt h hp
    have hstop : stopPrior s = deactivate s.timers i := by unfold stopPrior; rw [hp]
    have hinc : incCalls s = { s.deb with calls := s.deb.calls + 1 } := by
      unfold incCalls; rw [hp]
    by_cases hf : fireCond s now = true
    · rw [add_eq_fire now f s hf]
      refine ⟨by simp, ?_, ?_⟩
      · unfold timerIdx
        simp only [hinc, hp, hstop]
        simpa using hlt
      · intro j hj ha
        simp only [hstop, deactivate_length] at hj
        rw [hstop, deactivate_getD s.timers i j hj] at ha
        by_cases hji : j = i
        · simp [hji] at ha
        · rw [if_neg hji] at ha
          have := h.2.2 j hj ha
          simp only [hinc, hp]
          rw [← this, hp]
    · rw [add_eq_arm now f s (by simpa using hf)]
      refine ⟨?_, ?_, ?_⟩
      · have := h.1
        simp [hinc]
        omega
      · unfold timerIdx
        simp [hinc]
      · intro j hj ha
        simp only [hstop, List.length_append, deactivate_length, List.length_singleton] at hj
        simp only [hinc, hp, hstop]
        by_cases hjL : j = s.timers.length
        · rw [hjL]
          simp [deactivate_length]
        · exfalso
          have hjlt : j < s.timers.length := by omega
          rw [hstop, append_getD_lt _ _ j (by simpa using hjlt),
            deactivate_getD s.timers i j hjlt] at ha
          by_cases hji : j = i
          · simp [hji] at ha
          · rw [if_neg hji] at ha
            have := h.2.2 j hjlt ha
            rw [hp] at this
            exact hji (Option.some.inj this).symm

lemma expire_eq_fire (now : Time) (i : Nat) (s : DState) (tmr : TimerObj)
    (hg : s.timers[i]? = some tmr) (ha : tmr.active = true) (hd : tmr.deadline ≤ now) :
    expire now i s =
      { s with timers := deactivate s.timers i, execs := s.execs ++ [(now, tmr.work)] } := by
  simp [expire, hg, ha, hd]

lemma expire_eq_noop_none (now : Time) (i : Nat) (s : DState)
    (hg : s.timers[i]? = none) : expire now i s = s := by
  simp [expire, hg]

lemma expire_eq_noop_inactive (now : Time) (i : Nat) (s : DState) (tmr : TimerObj)
    (hg : s.timers[i]? = some tmr) (ha : tmr.active = false) : expire now i s = s := by
  simp [expire, hg, ha]

lemma expire_eq_noop_early (now : Time) (i : Nat) (s : DState) (tmr : TimerObj)
    (hg : s.timers[i]? = some tmr) (hd : now < tmr.deadline) : expire now i s = s := by
  have : ¬ (tmr.deadline ≤ now) := by exact not_le.mpr hd
  simp [expire, hg, this]

lemma DInv_expire (now : Time) (i : Nat) (s : DState) (h : DInv s) :
    DInv (expire now i s) := by
  rcases hg : s.timers[i]? with _ | tmr
  · rw [expire_eq_noop_none now i s hg]
    exact h
  · rcases ha : tmr.active with _ | _
    · rw [expire_eq_noop_inactive now i s tmr hg ha]
      exact h
    · by_cases hd : tmr.deadline ≤ now
      swap
      · rw [expire_eq_noop_early now i s tmr hg (not_le.mp hd)]
        exact h
      rw [expire_eq_fire now i s tmr hg ha hd]
      refine ⟨h.1, ?_, ?_⟩
      · have h2 := h.2.1
        unfold timerIdx at h2 ⊢
        rcases hp : s.deb.timer with _ | k
        · rw [hp] at h2
          exact ⟨h2.1, by rw [h2.2]; rfl⟩
        · rw [hp] at h2
          simpa using h2
      · intro j hj ha
        simp only [deactivate_length] at hj
        rw [deactivate_getD s.timers i j hj] at ha
        by_cases hji : j = i
        · simp [hji] at ha
        · rw [if_neg hji] at ha
          exact h.2.2 j hj ha

lemma DInv_step (s : DState) (e : Event) (h : DInv s) : DInv (step s e) := by
  cases e with
  | add now f => exact DInv_add now f s h
  | expire now i => exact DInv_expire now i s h

lemma atMostOne_of_DInv (s : DState) (h : DInv s) : atMostOneActive s := by
  intro j k hj hk haj hak
  have h1 := h.2.2 j hj haj
  have h2 := h.2.2 k hk hak
  exact Option.some.inj (h1.symm.trans h2)

lemma stopPrior_length (s : DState) : (stopPrior s).length = s.timers.length := by
  unfold stopPrior
  rcases h : s.deb.timer with _ | i <;> simp [h]

lemma stopPrior_inactive (s : DState) (h : DInv s) : ∀ j, Inactive (stopPrior s) j := by
  intro j tmr hg
  rcases hp : s.deb.timer with _ | i
  · have htm := (timerIdx_none_facts h hp).2
    unfold stopPrior at hg
    rw [hp, htm] at hg
    simp at hg
  · unfold stopPrior at hg
    rw [hp] at hg
    obtain ⟨hj, hgd⟩ := getElem?_some_facts _ j tmr hg
    rw [deactivate_length] at hj
    rw [deactivate_getD s.timers i j hj] at hgd
    by_cases hji : j = i
    · rw [if_pos hji] at hgd
      rw [← hgd]
    · rw [if_neg hji] at hgd
      rcases hact : tmr.active with _ | _
      · rfl
      · exfalso
        have hptr := h.2.2 j hj (by rw [hgd]; exact hact)
        rw [hp] at hptr
        exact hji (Option.some.inj hptr).symm

lemma getElem?_append_left (l : List TimerObj) (x : TimerObj) :
    ∀ j, j < l.length → (l ++ [x])[j]? = l[j]? := by
  induction l with
  | nil => intro j hj; simp at hj
  | cons t ts ih =>
    intro j hj
    cases j with
    | zero => simp
    | succ k => simpa using ih k (by simpa using hj)

/-- Claim C2: on every submission on which a firing condition holds (the code's
condition of src/debounce.go line 163, evaluated after the `calls` update:
`callLimitReached() || timeLimitReached()`), `add` resets `calls` to 0 and
`startWait` to `now`, executes the just-submitted work synchronously inside the
call (it is appended to the execution log by `add` itself, before `add`
returns), arms no new timer, and every previously armed timer — in particular
any pending deferred one — is stopped. -/
theorem C2_immediateFire (s : DState) (now : Time) (f : Nat)
    (hInv : DInv s) (hfire : fireCond s now = true) :
    (add now f s).execs = s.execs ++ [(now, f)] ∧
    (add now f s).deb.calls = 0 ∧
    (add now f s).deb.startWait = now ∧
    (add now f s).timers.length = s.timers.length ∧
    ∀ j, Inactive (add now f s).timers j := by
  rw [add_eq_fire now f s hfire]
  exact ⟨rfl, rfl, rfl, stopPrior_length s, stopPrior_inactive s hInv⟩

theorem C2_immediateFire_witness :
    (add 0 5 (New 10 [DebOption.withMaxCalls 1] 0)).execs =
      (New 10 [DebOption.withMaxCalls 1] 0).execs ++ [(0, 5)] ∧
    (add 0 5 (New 10 [DebOption.withMaxCalls 1] 0)).deb.calls = 0 :=
  ⟨(C2_immediateFire (New 10 [DebOption.withMaxCalls 1] 0) 0 5 (by decide) (by decide)).1,
   (C2_immediateFire (New 10 [DebOption.withMaxCalls 1] 0) 0 5 (by decide) (by decide)).2.1⟩

/-- Claim C3 is FALSE on the code for natural expiry: the callback passed to
`time.AfterFunc` is just `f` (src/debounce.go line 168), so when the deferred
timer fires naturally nothing resets `d.calls` or `d.startWait`.  Concretely:
construct with `delay = 10` and no options at instant 0, submit work 0 at
instant 0, and let the timer fire naturally at instant 10.  A firing happened
(the log shows it), yet `calls` is still 1 (not reset to 0) and `startWait` is
still 0 (not reset to the firing instant). -/
theorem C3_counterexample :
    (expire 10 0 (add 0 0 (New 10 [] 0))).execs = [(10, 0)] ∧
    (expire 10 0 (add 0 0 (New 10 [] 0))).deb.calls = 1 ∧
    (expire 10 0 (add 0 0 (New 10 [] 0))).deb.startWait = 0 := by decide

/-- Claim C3 as amended: only the call-limit and wait-limit immediate fires
reset `calls` and `startWait` (claim C2); a natural expiry of the deferred
timer leaves both entirely unchanged, so only batches that end in an immediate
fire are evaluated independently of each other.  The spec's own example still
holds: repeating a `maxCalls = 2` batch twice yields exactly two firings,
because each batch ends in an immediate fire which does reset the counters. -/
theorem C3_amended :
    (∀ (s : DState) (now : Time) (i : Nat),
      (expire now i s).deb.calls = s.deb.calls ∧
      (expire now i s).deb.startWait = s.deb.startWait) ∧
    (run (New 100 [DebOption.withMaxCalls 2] 0)
        [Event.add 0 10, Event.add 1 11, Event.add 2 12, Event.add 3 13]).execs
      = [(1, 11), (3, 13)] := by
  constructor
  · intro s now i
    rcases hg : s.timers[i]? with _ | tmr
    · rw [expire_eq_noop_none now i s hg]
      exact ⟨rfl, rfl⟩
    · rcases ha : tmr.active with _ | _
      · rw [expire_eq_noop_inactive now i s tmr hg ha]
        exact ⟨rfl, rfl⟩
      · by_cases hd : tmr.deadline ≤ now
        · rw [expire_eq_fire now i s tmr hg ha hd]
          exact ⟨rfl, rfl⟩
        · rw [expire_eq_noop_early now i s tmr hg (not_le.mp hd)]
          exact ⟨rfl, rfl⟩
  · decide

/-- Modelled from the spec: the spec's `submit` (§4.1 step 2) says "Increment
`callCount`.  If this is the first call of a new window, set `windowStart =
now`" — i.e. before the firing conditions are evaluated, a submission that
opens a new window (call count currently 0) moves the window start to the
submission instant.  This definition exists only to be compared with the
source's `add`, which never does this. -/
def add_specC4 (now : Time) (f : Nat) (s : DState) : DState :=
  add now f
    (if s.deb.calls = 0 then { s with deb := { s.deb with startWait := now } } else s)

/-- Claim C4 is FALSE on the code in its window-start part: `startWait` is set
only at construction and on immediate fires, never on the first submission of a
new window.  Concretely: construct at instant 0 with `maxWait = 3` and
`delay = 10`, and make the FIRST submission at instant 5.  Under the claim's
semantics (window start = now at the first submission of the window) no limit
is reached and a timer is armed; the code instead measures `time.Since` from
construction, finds `5 - 0 ≥ 3`, and fires immediately. -/
theorem C4_counterexample :
    (add 5 0 (New 10 [DebOption.withMaxWait 3] 0)).execs = [(5, 0)] ∧
    (add_specC4 5 0 (New 10 [DebOption.withMaxWait 3] 0)).execs = [] := by decide

/-- Claim C4 as amended: every submission increments the call count (the
`calls = 1` branch is taken only when `d.timer == nil`, where the invariant
gives `calls = 0`); but the window start is NOT set at the first submission of
a window — it changes only on immediate fires (to the fire instant), so the
`maxWait` condition measures elapsed time since construction or since the last
immediate fire. -/
theorem C4_amended (s : DState) (now : Time) (f : Nat) (hInv : DInv s) :
    (incCalls s).calls = s.deb.calls + 1 ∧
    (fireCond s now = true →
      (add now f s).deb.calls = 0 ∧ (add now f s).deb.startWait = now) ∧
    (fireCond s now = false →
      (add now f s).deb.calls = s.deb.calls + 1 ∧
      (add now f s).deb.startWait = s.deb.startWait) := by
  have hinc : (incCalls s).calls = s.deb.calls + 1 := by
    unfold incCalls
    rcases hp : s.deb.timer with _ | i
    · have hc0 := (timerIdx_none_facts hInv hp).1
      simp [hp, hc0]
    · simp [hp]
  refine ⟨hinc, ?_, ?_⟩
  · intro hf
    rw [add_eq_fire now f s hf]
    exact ⟨rfl, rfl⟩
  · intro hf
    rw [add_eq_arm now f s hf]
    exact ⟨hinc, incCalls_startWait s⟩

theorem C4_amended_witness :
    (incCalls (New 10 [] 0)).calls = (New 10 [] 0).deb.calls + 1 ∧
    (add 0 0 (New 10 [] 0)).deb.calls = (New 10 [] 0).deb.calls + 1 ∧
    (add 0 0 (New 10 [] 0)).deb.startWait = (New 10 [] 0).deb.startWait :=
  ⟨(C4_amended (New 10 [] 0) 0 0 (by decide)).1,
   ((C4_amended (New 10 [] 0) 0 0 (by decide)).2.2 (by decide)).1,
   ((C4_amended (New 10 [] 0) 0 0 (by decide)).2.2 (by decide)).2⟩

/-- Claim C5: the single-outstanding-timer invariant.  `DInv` — in particular
its clause that every armed timer object is the one `d.timer` points at —
holds at construction, is preserved by every event (`add` or timer delivery)
from every reachable state, implies that at most one armed timer exists at any
instant, and every submission stops the previously pointed-at timer: after
`add`, the prior `d.timer` target is no longer armed, whether the call armed a
fresh timer or fired immediately. -/
theorem C5_singleTimer :
    (∀ (a : Int) (opts : List DebOption) (t0 : Time), DInv (New a opts t0)) ∧
    (∀ (s : DState) (e : Event), DInv s → DInv (step s e)) ∧
    (∀ (s : DState), DInv s → atMostOneActive s) ∧
    (∀ (s : DState) (now : Time) (f : Nat) (i : Nat), DInv s → s.deb.timer = some i →
      Inactive (add now f s).timers i) := by
  refine ⟨fun a opts t0 => DInv_New a t0 opts,
    fun s e h => DInv_step s e h,
    fun s h => atMostOne_of_DInv s h, ?_⟩
  intro s now f i hInv hp
  by_cases hf : fireCond s now = true
  · rw [add_eq_fire now f s hf]
    exact stopPrior_inactive s hInv i
  · rw [add_eq_arm now f s (by simpa using hf)]
    intro tmr hg
    have hi : i < (stopPrior s).length := by
      rw [stopPrior_length]
      exact timerIdx_some_lt hInv hp
    rw [getElem?_append_left _ _ i hi] at hg
    exact stopPrior_inactive s hInv i tmr hg

theorem C5_singleTimer_witness :
    DInv (New 10 [] 0) ∧
    DInv (step (New 10 [] 0) (Event.add 0 0)) ∧
    atMostOneActive (New 10 [] 0) :=
  ⟨C5_singleTimer.1 10 [] 0,
   C5_singleTimer.2.1 (New 10 [] 0) (Event.add 0 0) (C5_singleTimer.1 10 [] 0),
   C5_singleTimer.2.2.1 (New 10 [] 0) (C5_singleTimer.1 10 [] 0)⟩

/-- Claim C7 is FALSE on the code: `New` (src/debounce.go lines 113-128)
performs no validation whatsoever.  Constructing with the negative delay `-5`
succeeds, stores `-5` as-is (no error, no coercion to zero), and the debouncer
operates: a submission arms a timer whose deadline `-5` already lies in the
past, which the runtime then delivers at once. -/
theorem C7_counterexample :
    (New (-5) [] 0).deb.after = -5 ∧
    (New (-5) [] 0).deb.after ≠ 0 ∧
    (add 0 0 (New (-5) [] 0)).timers = [{ deadline := -5, work := 0, active := true }] ∧
    (expire 0 0 (add 0 0 (New (-5) [] 0))).execs = [(0, 0)] := by decide

/-- Claim C7 as amended: construction never fails and coerces nothing — any
delay, negative included, is stored as-is, and a submission (that reaches no
limit) arms a timer whose deadline `now + after` precedes the submission
instant, so it fires on the next runtime delivery. -/
theorem C7_amended (a : Int) (ha : a < 0) (t0 : Time) :
    (New a [] t0).deb.after = a ∧
    ∀ (now : Time) (f : Nat), now - t0 < maxInt64 →
      (add now f (New a [] t0)).timers =
        [{ deadline := now + a, work := f, active := true }] ∧ now + a < now := by
  refine ⟨by simp, ?_⟩
  intro now f hb
  have hf : fireCond (New a [] t0) now = false :=
    fireCond_false _ now rfl (by simpa using hb)
  rw [add_eq_arm now f _ hf]
  constructor
  · simp [stopPrior, incCalls]
  · exact add_lt_iff_neg_left.mpr ha

theorem C7_amended_witness :
    (New (-7) [] 0).deb.after = -7 ∧
    (add 3 1 (New (-7) [] 0)).timers = [{ deadline := 3 + -7, work := 1, active := true }] ∧
    (3 : Int) + -7 < 3 :=
  ⟨(C7_amended (-7) (by decide) 0).1,
   ((C7_amended (-7) (by decide) 0).2 3 1 (by decide)).1,
   ((C7_amended (-7) (by decide) 0).2 3 1 (by decide)).2⟩

/-! ### Degenerate limits: every submission fires immediately, no timer is ever armed -/

lemma run_alwaysFire_calls (c : Int) (hc : c ≤ 0) (hne : c ≠ -1) :
    ∀ (es : List Event) (s : DState),
      s.timers = [] → s.deb.timer = none → s.deb.callsLimit = c →
      (run s es).timers = [] ∧
      (run s es).execs = s.execs ++ es.filterMap addOf := by
  intro es
  induction es with
  | nil =>
    intro s h1 h2 h3
    simpa [run] using h1
  | cons e es ih =>
    intro s h1 h2 h3
    cases e with
    | add now f =>
      have h1c : (incCalls s).calls = 1 := by simp [incCalls, h2]
      have hf : fireCond s now = true := by
        apply fireCond_of_calls s now
        · rw [h3]; exact hne
        · rw [h1c, h3]; omega
      show (run (add now f s) es).timers = [] ∧
        (run (add now f s) es).execs = s.execs ++ ((now, f) :: es.filterMap addOf)
      rw [add_eq_fire now f s hf]
      have hstop : stopPrior s = [] := by
        unfold stopPrior
        rw [h2]
        exact h1
      obtain ⟨ht, he⟩ := ih
        { deb := { incCalls s with calls := 0, startWait := now },
          timers := stopPrior s, execs := s.execs ++ [(now, f)] }
        hstop (by simp [h2]) (by simp [h3])
      refine ⟨ht, ?_⟩
      rw [he]
      simp
    | expire now i =>
      have hnoop : expire now i s = s :=
        expire_eq_noop_none now i s (by rw [h1]; rfl)
      show (run (expire now i s) es).timers = [] ∧
        (run (expire now i s) es).execs = s.execs ++ es.filterMap addOf
      rw [hnoop]
      exact ih s h1 h2 h3

lemma run_alwaysFire_wait (w : Int) (hw : w ≤ 0) :
    ∀ (es : List Event) (s : DState),
      s.timers = [] → s.deb.timer = none → s.deb.waitLimit = w →
      List.Pairwise (fun x y : Int => x ≤ y) (s.deb.startWait :: es.map Event.time) →
      (run s es).timers = [] ∧
      (run s es).execs = s.execs ++ es.filterMap addOf := by
  intro es
  induction es with
  | nil =>
    intro s h1 h2 h3 _
    simpa [run] using h1
  | cons e es ih =>
    intro s h1 h2 h3 hp
    rw [List.map_cons, List.pairwise_cons] at hp
    cases e with
    | add now f =>
      have hsw : s.deb.startWait ≤ now := hp.1 now (by simp [Event.time])
      have hf : fireCond s now = true := by
        apply fireCond_of_time
        rw [h3]
        linarith
      show (run (add now f s) es).timers = [] ∧
        (run (add now f s) es).execs = s.execs ++ ((now, f) :: es.filterMap addOf)
      rw [add_eq_fire now f s hf]
      have hstop : stopPrior s = [] := by
        unfold stopPrior
        rw [h2]
        exact h1
      have hpair : List.Pairwise (fun x y : Int => x ≤ y)
          (now :: es.map Event.time) := hp.2
      obtain ⟨ht, he⟩ := ih
        { deb := { incCalls s with calls := 0, startWait := now },
          timers := stopPrior s, execs := s.execs ++ [(now, f)] }
        hstop (by simp [h2]) (by simp [h3]) (by simpa using hpair)
      refine ⟨ht, ?_⟩
      rw [he]
      simp
    | expire now i =>
      have hnoop : expire now i s = s :=
        expire_eq_noop_none now i s (by rw [h1]; rfl)
      show (run (expire now i s) es).timers = [] ∧
        (run (expire now i s) es).execs = s.execs ++ es.filterMap addOf
      rw [hnoop]
      apply ih s h1 h2 h3
      rw [List.pairwise_cons]
      refine ⟨?_, (List.pairwise_cons.mp hp.2).2⟩
      intro y hy
      exact hp.1 y (List.mem_cons_of_mem _ hy)

/-- Claim C9: only the exact value `-1` means "no call limit".  For any other
non-positive `count` passed to `WithMaxCalls`, `callsLimit != -1 && calls >=
callsLimit` holds on every submission (the updated count is at least 1 > 0 ≥
count), so over an arbitrary run every submitted function is executed
immediately and inline by `add`, and no deferred timer is ever created. -/
theorem C9_maxCallsNonpos (c : Int) (hc : c ≤ 0) (hne : c ≠ -1)
    (a t0 : Int) (es : List Event) :
    (run (New a [DebOption.withMaxCalls c] t0) es).timers = [] ∧
    (run (New a [DebOption.withMaxCalls c] t0) es).execs = es.filterMap addOf := by
  have h := run_alwaysFire_calls c hc hne es (New a [DebOption.withMaxCalls c] t0)
    rfl rfl rfl
  simpa using h

theorem C9_maxCallsNonpos_witness :
    (run (New 10 [DebOption.withMaxCalls 0] 0) [Event.add 0 4, Event.add 1 5]).timers = [] ∧
    (run (New 10 [DebOption.withMaxCalls 0] 0) [Event.add 0 4, Event.add 1 5]).execs =
      [Event.add 0 4, Event.add 1 5].filterMap addOf :=
  C9_maxCallsNonpos 0 (by decide) (by decide) 10 0 [Event.add 0 4, Event.add 1 5]

/-- Claim C10: a zero or negative `limit` passed to `WithMaxWait` makes
`time.Since(d.startWait) >= d.waitLimit` hold on every submission of any run
whose event instants are monotone and start no earlier than the construction
instant (the monotonic clock guarantees exactly this), so every submitted
function is executed immediately and inline regardless of the configured
delay, and no deferred timer is ever created. -/
theorem C10_maxWaitNonpos (w : Int) (hw : w ≤ 0) (a t0 : Int) (es : List Event)
    (hmono : List.Pairwise (fun x y : Int => x ≤ y) (t0 :: es.map Event.time)) :
    (run (New a [DebOption.withMaxWait w] t0) es).timers = [] ∧
    (run (New a [DebOption.withMaxWait w] t0) es).execs = es.filterMap addOf := by
  have h := run_alwaysFire_wait w hw es (New a [DebOption.withMaxWait w] t0)
    rfl rfl rfl (by simpa using hmono)
  simpa using h

theorem C10_maxWaitNonpos_witness :
    (run (New 10 [DebOption.withMaxWait 0] 0) [Event.add 1 4, Event.add 2 5]).timers = [] ∧
    (run (New 10 [DebOption.withMaxWait 0] 0) [Event.add 1 4, Event.add 2 5]).execs =
      [Event.add 1 4, Event.add 2 5].filterMap addOf :=
  C10_maxWaitNonpos 0 (by decide) 10 0 [Event.add 1 4, Event.add 2 5] (by decide)

/-! ### Traces for the no-limits debouncing claim

A submission phase is a list of `add` events (the submissions `ps`, in order)
interleaved with arbitrary timer-delivery attempts.  `TimesOK` threads through
the trace the deadline of the currently armed timer: each delivery attempt
happens strictly before it (which is forced by monotone event instants whenever
consecutive submissions are closer than the delay, since the armed deadline
always lies strictly beyond the next submission), and each submission happens
within `maxInt64` of the window start, as any run shorter than 292 years does. -/

inductive Interleaves : List (Time × Nat) → List Event → Prop
  | nil : Interleaves [] []
  | addE (t : Time) (f : Nat) {ps : List (Time × Nat)} {es : List Event} :
      Interleaves ps es → Interleaves ((t, f) :: ps) (Event.add t f :: es)
  | expE (t : Time) (i : Nat) {ps : List (Time × Nat)} {es : List Event} :
      Interleaves ps es → Interleaves ps (Event.expire t i :: es)

/-- Does the trace contain a submission? -/
def hasAdd : List Event → Bool
  | [] => false
  | Event.add _ _ :: _ => true
  | Event.expire _ _ :: es => hasAdd es

/-- Every delivery attempt is followed by a later submission, i.e. the trace
ends with its final submission (the state is examined at that moment). -/
def expiresCovered : List Event → Bool
  | [] => true
  | Event.add _ _ :: es => expiresCovered es
  | Event.expire _ _ :: es => hasAdd es && expiresCovered es

/-- Timing side conditions, threading the deadline `b` of the armed timer. -/
def TimesOK (a t0 : Int) : Time → List Event → Prop
  | _, [] => True
  | _, Event.add t _ :: es => t - t0 < maxInt64 ∧ TimesOK a t0 (t + a) es
  | b, Event.expire t _ :: es => t < b ∧ TimesOK a t0 b es

/-- The final submission of a batch. -/
def lastP : List (Time × Nat) → Option (Time × Nat)
  | [] => none
  | [p] => some p
  | _ :: p :: ps => lastP (p :: ps)

/-- Configuration of a no-limits debouncer with construction instant `t0`. -/
def Base (a t0 : Int) (s : DState) : Prop :=
  s.deb.after = a ∧ s.deb.callsLimit = -1 ∧ s.deb.waitLimit = maxInt64 ∧
  s.deb.startWait = t0

/-- No timer was ever armed. -/
def Unarmed (s : DState) : Prop := s.deb.timer = none ∧ s.timers = []

/-- The pointed-at timer is armed with deadline `d` for work `f`, and every
other timer object is spent or stopped. -/
def Sched (s : DState) (d : Time) (f : Nat) : Prop :=
  ∃ i, s.deb.timer = some i ∧
    s.timers[i]? = some { deadline := d, work := f, active := true } ∧
    ∀ j, j ≠ i → Inactive s.timers j

/-- Some work is scheduled with deadline `b`. -/
def Armed (s : DState) (b : Time) : Prop := ∃ f, Sched s b f

lemma getElem?_big (l : List TimerObj) : ∀ j, l.length ≤ j → l[j]? = none := by
  induction l with
  | nil => intro j _; rfl
  | cons t ts ih =>
    intro j hj
    cases j with
    | zero => simp at hj
    | succ k => simpa using ih k (by simpa using hj)

lemma expire_noop_unarmed (now : Time) (i : Nat) (s : DState) (h : Unarmed s) :
    expire now i s = s :=
  expire_eq_noop_none now i s (by rw [h.2]; rfl)

lemma expire_noop_armed (now : Time) (i : Nat) (s : DState) (b : Time)
    (h : Armed s b) (hlt : now < b) : expire now i s = s := by
  obtain ⟨f, j, hptr, hj, hother⟩ := h
  by_cases hij : i = j
  · subst hij
    exact expire_eq_noop_early now i s _ hj hlt
  · rcases hg : s.timers[i]? with _ | tmr
    · exact expire_eq_noop_none now i s hg
    · exact expire_eq_noop_inactive now i s tmr hg (hother i hij tmr hg)

lemma stopPrior_inactive_st (s : DState) (b : Time) (hSt : Unarmed s ∨ Armed s b) :
    ∀ j, Inactive (stopPrior s) j := by
  intro j tmr hg
  rcases hSt with hU | hA
  · unfold stopPrior at hg
    rw [hU.1, hU.2] at hg
    simp at hg
  · obtain ⟨f', j', hptr, hj', hother⟩ := hA
    unfold stopPrior at hg
    rw [hptr, deactivate_getElem? s.timers j' j] at hg
    by_cases hjj : j = j'
    · rw [if_pos hjj] at hg
      rcases hx : s.timers[j]? with _ | old
      · rw [hx] at hg
        simp at hg
      · rw [hx] at hg
        simp at hg
        rw [← hg]
    · rw [if_neg hjj] at hg
      exact hother j hjj tmr hg

lemma add_submit (a t0 : Int) (s : DState) (now : Time) (f : Nat) (b : Time)
    (hB : Base a t0 s) (hSt : Unarmed s ∨ Armed s b) (hbound : now - t0 < maxInt64) :
    Base a t0 (add now f s) ∧ Sched (add now f s) (now + a) f ∧
    (add now f s).execs = s.execs := by
  have hf : fireCond s now = false :=
    fireCond_false s now hB.2.1 (by rw [hB.2.2.2, hB.2.2.1]; exact hbound)
  have hafter : (incCalls s).after = a := by rw [incCalls_after]; exact hB.1
  rw [add_eq_arm now f s hf]
  refine ⟨⟨by simp [hB.1], by simp [hB.2.1], by simp [hB.2.2.1], by simp [hB.2.2.2]⟩,
    ⟨(stopPrior s).length, rfl, ?_, ?_⟩, rfl⟩
  · rw [hafter]
    exact getElem?_concat_len _ _
  · intro j hj tmr hg
    rcases lt_or_ge j (stopPrior s).length with hlt | hge
    · rw [getElem?_append_left _ _ j hlt] at hg
      exact stopPrior_inactive_st s b hSt j tmr hg
    · have hgt : (stopPrior s ++
          [({ deadline := now + (incCalls s).after, work := f,
              active := true } : TimerObj)]).length ≤ j := by
        simp only [List.length_append, List.length_singleton]
        omega
      rw [getElem?_big _ j hgt] at hg
      cases hg

lemma lastP_cons_some : ∀ (l : List (Time × Nat)) (p : Time × Nat),
    ∃ r, lastP (p :: l) = some r := by
  intro l
  induction l with
  | nil => intro p; exact ⟨p, rfl⟩
  | cons q l2 ih => intro p; simpa [lastP] using ih q

lemma run_submitPhase (a t0 : Int) :
    ∀ (ps : List (Time × Nat)) (es : List Event), Interleaves ps es →
    ∀ (s : DState) (b : Time), Base a t0 s → (Unarmed s ∨ Armed s b) →
      TimesOK a t0 b es →
      (lastP ps = none → run s es = s) ∧
      (∀ tl fl, lastP ps = some (tl, fl) →
        (run s es).execs = s.execs ∧ Base a t0 (run s es) ∧
        Sched (run s es) (tl + a) fl) := by
  intro ps es hI
  induction hI with
  | nil =>
    intro s b hB hSt hT
    refine ⟨fun _ => rfl, fun tl fl h => ?_⟩
    simp [lastP] at h
  | @addE t f ps es hI' ih =>
    intro s b hB hSt hT
    obtain ⟨hbound, hT'⟩ := hT
    obtain ⟨hB', hSch', hex'⟩ := add_submit a t0 s t f b hB hSt hbound
    have hArm' : Unarmed (add t f s) ∨ Armed (add t f s) (t + a) := Or.inr ⟨f, hSch'⟩
    have ih' := ih (add t f s) (t + a) hB' hArm' hT'
    rcases ps with _ | ⟨q, ps2⟩
    · refine ⟨fun h => ?_, fun tl fl h => ?_⟩
      · simp [lastP] at h
      · simp [lastP] at h
        obtain ⟨rfl, rfl⟩ := h
        have hrun : run (add t f s) es = add t f s := ih'.1 rfl
        show (run (add t f s) es).execs = s.execs ∧
          Base a t0 (run (add t f s) es) ∧ Sched (run (add t f s) es) (t + a) f
        rw [hrun]
        exact ⟨hex', hB', hSch'⟩
    · refine ⟨fun h => ?_, fun tl fl h => ?_⟩
      · exfalso
        obtain ⟨r, hr⟩ : ∃ r, lastP ((t, f) :: q :: ps2) = some r := lastP_cons_some _ _
        rw [h] at hr
        cases hr
      · have hlast2 : lastP (q :: ps2) = some (tl, fl) := h
        obtain ⟨hex2, hB2, hSch2⟩ := ih'.2 tl fl hlast2
        exact ⟨hex2.trans hex', hB2, hSch2⟩
  | @expE τ i ps es hI' ih =>
    intro s b hB hSt hT
    obtain ⟨hτ, hT'⟩ := hT
    have hnoop : expire τ i s = s := by
      rcases hSt with hU | hA
      · exact expire_noop_unarmed τ i s hU
      · exact expire_noop_armed τ i s b hA hτ
    have ih' := ih s b hB hSt hT'
    constructor
    · intro h
      show run (expire τ i s) es = s
      rw [hnoop]
      exact ih'.1 h
    · intro tl fl h
      show (run (expire τ i s) es).execs = s.execs ∧
        Base a t0 (run (expire τ i s) es) ∧ Sched (run (expire τ i s) es) (tl + a) fl
      rw [hnoop]
      exact ih'.2 tl fl h

lemma interleaves_mem_add :
    ∀ {ps : List (Time × Nat)} {es : List Event}, Interleaves ps es →
      ∀ (t : Time) (f : Nat) (ps2 : List (Time × Nat)),
        ps = (t, f) :: ps2 → Event.add t f ∈ es := by
  intro ps es h
  induction h with
  | nil =>
    intro t f ps2 hq
    simp at hq
  | @addE t' f' ps' es' h' ih =>
    intro t f ps2 hq
    injection hq with h1 h2
    obtain ⟨rfl, rfl⟩ := Prod.mk.inj h1
    exact List.mem_cons_self _ _
  | @expE t' i ps' es' h' ih =>
    intro t f ps2 hq
    exact List.mem_cons_of_mem _ (ih t f ps2 hq)

lemma interleaves_hasAdd :
    ∀ {ps : List (Time × Nat)} {es : List Event}, Interleaves ps es →
      hasAdd es = true → ∃ t f ps2, ps = (t, f) :: ps2 := by
  intro ps es h
  induction h with
  | nil =>
    intro hh
    simp [hasAdd] at hh
  | @addE t f ps' es' h' ih =>
    intro _
    exact ⟨t, f, ps', rfl⟩
  | @expE t i ps' es' h' ih =>
    intro hh
    exact ih (by simpa [hasAdd] using hh)

lemma timesOK_of_chain (a t0 : Int) :
    ∀ (ps : List (Time × Nat)) (es : List Event), Interleaves ps es →
    ∀ b : Time,
      List.Pairwise (fun e e' : Event => e.time ≤ e'.time) es →
      List.Chain' (fun p q : Time × Nat => q.1 < p.1 + a) ps →
      (∀ p ∈ ps, p.1 - t0 < maxInt64) →
      expiresCovered es = true →
      (∀ (t : Time) (f : Nat) (ps2 : List (Time × Nat)), ps = (t, f) :: ps2 → t < b) →
      TimesOK a t0 b es := by
  intro ps es hI
  induction hI with
  | nil =>
    intro b _ _ _ _ _
    trivial
  | @addE t f ps es hI' ih =>
    intro b hPW hCh hBd hCov hHd
    refine ⟨hBd (t, f) (List.mem_cons_self _ _), ?_⟩
    apply ih (t + a) (List.pairwise_cons.mp hPW).2 hCh.tail
      (fun p hp => hBd p (List.mem_cons_of_mem _ hp))
      (by simpa [expiresCovered] using hCov)
    intro t' f' ps2 hq
    subst hq
    exact (List.chain'_cons.mp hCh).1
  | @expE τ i ps es hI' ih =>
    intro b hPW hCh hBd hCov hHd
    have hcov2 : hasAdd es = true ∧ expiresCovered es = true := by
      simpa [expiresCovered] using hCov
    obtain ⟨t', f', ps2, hps⟩ := interleaves_hasAdd hI' hcov2.1
    have hmem : Event.add t' f' ∈ es := interleaves_mem_add hI' t' f' ps2 hps
    have hτt' : τ ≤ t' := by
      have hh := (List.pairwise_cons.mp hPW).1 (Event.add t' f') hmem
      simpa [Event.time] using hh
    have ht'b : t' < b := hHd t' f' ps2 hps
    exact ⟨lt_of_le_of_lt hτt' ht'b, ih b (List.pairwise_cons.mp hPW).2 hCh hBd hcov2.2 hHd⟩

/-- Claim C1: with no options configured, for any batch of N ≥ 1 submissions
`ps`, each arriving no earlier than the previous and strictly less than `delay`
after it, and any interleaved timer-delivery attempts with monotone instants up
to the final submission (`Interleaves`/`expiresCovered`), nothing at all
executes during the batch; at the final submission exactly one timer is armed —
for the last-submitted work, with deadline exactly `delay` after the final
submission — and its delivery executes exactly that work at that deadline,
after which no timer remains armed: every earlier submission was discarded and
never runs. -/
theorem C1_lastWriteWins (a t0 : Int) (ha : 0 < a)
    (ps : List (Time × Nat)) (es : List Event) (tl : Time) (fl : Nat)
    (hlast : lastP ps = some (tl, fl))
    (hI : Interleaves ps es)
    (hmono : List.Pairwise (fun e e' : Event => e.time ≤ e'.time) es)
    (hgap : List.Chain' (fun p q : Time × Nat => q.1 < p.1 + a) ps)
    (hbound : ∀ p ∈ ps, p.1 - t0 < maxInt64)
    (hcov : expiresCovered es = true) :
    (run (New a [] t0) es).execs = [] ∧
    ∃ i, (run (New a [] t0) es).deb.timer = some i ∧
      (run (New a [] t0) es).timers[i]? =
        some { deadline := tl + a, work := fl, active := true } ∧
      (expire (tl + a) i (run (New a [] t0) es)).execs = [(tl + a, fl)] ∧
      ∀ j, Inactive (expire (tl + a) i (run (New a [] t0) es)).timers j := by
  rcases hps : ps with _ | ⟨⟨t1, f1⟩, ps2⟩
  · rw [hps] at hlast
    simp [lastP] at hlast
  · subst hps
    have hHd : ∀ (t : Time) (f : Nat) (qs : List (Time × Nat)),
        (t1, f1) :: ps2 = (t, f) :: qs → t < t1 + a := by
      intro t f qs hq
      injection hq with h1 _
      obtain ⟨rfl, rfl⟩ := Prod.mk.inj h1
      linarith
    have hT : TimesOK a t0 (t1 + a) es :=
      timesOK_of_chain a t0 _ es hI (t1 + a) hmono hgap hbound hcov hHd
    have hmain := (run_submitPhase a t0 _ es hI (New a [] t0) (t1 + a)
      ⟨rfl, rfl, rfl, rfl⟩ (Or.inl ⟨rfl, rfl⟩) hT).2 tl fl hlast
    obtain ⟨hex, hB, i, hptr, hget, hother⟩ := hmain
    have hexec := expire_eq_fire (tl + a) i (run (New a [] t0) es) _ hget rfl le_rfl
    refine ⟨by simpa using hex, i, hptr, hget, ?_, ?_⟩
    · rw [hexec]
      simp
      simpa using hex
    · intro j tmr hg
      rw [hexec] at hg
      simp only at hg
      obtain ⟨hj, hgd⟩ := getElem?_some_facts _ j tmr hg
      rw [deactivate_length] at hj
      rw [deactivate_getD _ i j hj] at hgd
      by_cases hji : j = i
      · rw [if_pos hji] at hgd
        rw [← hgd]
      · rw [if_neg hji] at hgd
        have hg2 : (run (New a [] t0) es).timers[j]? = some tmr := by
          rw [getD_getElem? _ j hj, hgd]
        exact hother j hji tmr hg2

theorem C1_lastWriteWins_witness :
    (run (New 10 [] 0) [Event.add 0 0, Event.expire 1 0, Event.add 1 1]).execs = [] ∧
    ∃ i, (run (New 10 [] 0)
        [Event.add 0 0, Event.expire 1 0, Event.add 1 1]).deb.timer = some i ∧
      (run (New 10 [] 0) [Event.add 0 0, Event.expire 1 0, Event.add 1 1]).timers[i]? =
        some { deadline := 1 + 10, work := 1, active := true } ∧
      (expire (1 + 10) i (run (New 10 [] 0)
        [Event.add 0 0, Event.expire 1 0, Event.add 1 1])).execs = [(1 + 10, 1)] ∧
      ∀ j, Inactive (expire (1 + 10) i (run (New 10 [] 0)
        [Event.add 0 0, Event.expire 1 0, Event.add 1 1])).timers j :=
  C1_lastWriteWins 10 0 (by decide) [(0, 0), (1, 1)]
    [Event.add 0 0, Event.expire 1 0, Event.add 1 1] 1 1 (by decide)
    (Interleaves.addE 0 0 (Interleaves.expE 1 0 (Interleaves.addE 1 1 Interleaves.nil)))
    (by decide) (List.chain'_cons.mpr ⟨by norm_num, List.chain'_singleton _⟩)
    (by decide) (by decide)

/-! ### The channel-based variant (src/debounce.go lines 15-71)

`debounceChan` starts a goroutine (the "inner" process) holding `var f func() =
func() {}` and looping over a select with three cases: receive a new `f` from
the buffered (capacity 1) channel `in`; a `time.After(interval)` timeout, after
which it sends `f` on the unbuffered channel `out` (a rendezvous) and then
blocks on a bare `<-in`; or `quit` being closed, after which it returns.  `New`
starts a second goroutine (the "outer" process) looping over a select with two
cases: receive a function from `out` and execute it, or `quit` being closed,
after which it closes `out`, `in` and `done` and returns.  The client submits
by sending on `in` and shuts down by closing `quit`.

We model the two goroutines and the channels as an explicit interleaving
transition system.  Go's select chooses NONDETERMINISTICALLY among ready cases,
so every enabled event may be taken; `time.After` may become ready at any
select, so `timeout` is always enabled at the inner select.  Receiving from a
closed channel yields the zero value (`nilv` — executing it would panic);
sending on a closed channel panics (the `crashed` state, reachable when the
outer goroutine closes `out` while the inner is blocked sending on it).  A
submit while `in` is closed would panic the CLIENT, executing nothing; we model
it as disabled.  `fcur` is the inner goroutine's `f` variable; `dummy` is its
initial no-op value, which is not a submitted work.  Executions (the outer
goroutine's `f()`) are logged in `execs`. -/

inductive WorkV
  | dummy
  | nilv
  | w (f : Nat)
deriving DecidableEq

inductive IPC
  | select
  | sendOut
  | recvIn
  | finished
  | crashed
deriving DecidableEq

inductive OPC
  | select
  | finished
deriving DecidableEq

structure ChanSt where
  inner : IPC
  fcur : WorkV
  inBuf : Option WorkV
  inClosed : Bool
  outClosed : Bool
  quitClosed : Bool
  outer : OPC
  execs : List WorkV
deriving DecidableEq

/-- The state right after `New` returns: both goroutines at their selects,
nothing buffered, nothing closed, nothing executed. -/
def chanInit : ChanSt :=
  { inner := IPC.select, fcur := WorkV.dummy, inBuf := none,
    inClosed := false, outClosed := false, quitClosed := false,
    outer := OPC.select, execs := [] }

inductive CEvent
  | submit (f : Nat)
  | recvSubmitted
  | recvClosedIn
  | timeout
  | innerQuit
  | handoff
  | sendClosed
  | drainBuf
  | drainClosed
  | closeQuit
  | outerQuit
deriving DecidableEq

/-- One interleaving step; `none` when the event is not enabled.
`submit f`: the client's `in <- f` (needs buffer space and `in` open).
`recvSubmitted`: inner select takes `f = <-in`.
`recvClosedIn`: inner select takes `f = <-in` on a closed `in`, yielding nil.
`timeout`: inner select takes `<-time.After(interval)` and moves to `out <- f`.
`innerQuit`: inner select takes `<-quit` and returns.
`handoff`: the rendezvous `out <- f` / `f := <-out; f()` — the outer goroutine
executes the inner's current `f`; the inner moves to its bare `<-in`.
`sendClosed`: `out <- f` on a closed `out` panics the inner goroutine.
`drainBuf` / `drainClosed`: the inner's bare `<-in` completes (value discarded).
`closeQuit`: the client closes `quit`.
`outerQuit`: outer select takes `<-quit`, closes `out` and `in`, and returns. -/
def cstep (s : ChanSt) : CEvent → Option ChanSt
  | .submit f =>
    if s.inBuf = none ∧ s.inClosed = false then
      some { s with inBuf := some (.w f) } else none
  | .recvSubmitted =>
    if s.inner = IPC.select ∧ s.inBuf ≠ none then
      some { s with fcur := s.inBuf.getD .dummy, inBuf := none } else none
  | .recvClosedIn =>
    if s.inner = IPC.select ∧ s.inBuf = none ∧ s.inClosed = true then
      some { s with fcur := .nilv } else none
  | .timeout =>
    if s.inner = IPC.select then some { s with inner := .sendOut } else none
  | .innerQuit =>
    if s.inner = IPC.select ∧ s.quitClosed = true then
      some { s with inner := .finished } else none
  | .handoff =>
    if s.inner = IPC.sendOut ∧ s.outClosed = false ∧ s.outer = OPC.select then
      some { s with inner := .recvIn, execs := s.execs ++ [s.fcur] } else none
  | .sendClosed =>
    if s.inner = IPC.sendOut ∧ s.outClosed = true then
      some { s with inner := .crashed } else none
  | .drainBuf =>
    if s.inner = IPC.recvIn ∧ s.inBuf ≠ none then
      some { s with inBuf := none, inner := .select } else none
  | .drainClosed =>
    if s.inner = IPC.recvIn ∧ s.inBuf = none ∧ s.inClosed = true then
      some { s with inner := .select } else none
  | .closeQuit =>
    if s.quitClosed = false then some { s with quitClosed := true } else none
  | .outerQuit =>
    if s.outer = OPC.select ∧ s.quitClosed = true then
      some { s with outClosed := true, inClosed := true, outer := .finished }
    else none

/-- A run of the channel system; `none` when some event was not enabled. -/
def crun (s : ChanSt) : List CEvent → Option ChanSt
  | [] => some s
  | e :: es =>
    match cstep s e with
    | some s2 => crun s2 es
    | none => none

lemma cstep_outer_finished (s : ChanSt) (e : CEvent) (s2 : ChanSt)
    (hdone : s.outer = OPC.finished) (h : cstep s e = some s2) :
    s2.execs = s.execs ∧ s2.outer = OPC.finished := by
  cases e <;> simp only [cstep] at h <;> split at h <;>
    first
      | (injection h with h2; subst h2; exact ⟨rfl, hdone⟩)
      | (injection h with h2; subst h2; exact ⟨rfl, rfl⟩)
      | (cases h; done)
      | (rename_i hc; rw [hdone] at hc; simp at hc)

lemma crun_outer_finished :
    ∀ (es : List CEvent) (s s2 : ChanSt), s.outer = OPC.finished →
      crun s es = some s2 → s2.execs = s.execs ∧ s2.outer = OPC.finished := by
  intro es
  induction es with
  | nil =>
    intro s s2 hdone h
    cases h
    exact ⟨rfl, hdone⟩
  | cons e es ih =>
    intro s s2 hdone h
    unfold crun at h
    rcases hc : cstep s e with _ | s1
    · rw [hc] at h
      cases h
    · rw [hc] at h
      obtain ⟨he, ho⟩ := cstep_outer_finished s e s1 hdone hc
      obtain ⟨he2, ho2⟩ := ih s1 s2 ho h
      exact ⟨he2.trans he, ho2⟩

/-- Claim C8 is FALSE as stated: Go's select picks nondeterministically among
ready cases, so a pending handoff may be taken AFTER `quit` is closed.
Concretely: submit work 7, let the inner goroutine receive it and time out (it
is now blocked sending on `out`), close `quit` — at this point `quitClosed` is
true and nothing has executed — and then let the outer select (whose `<-out`
and `<-quit` cases are BOTH ready) take the `out` case: the submitted work 7
executes strictly after the quit channel was closed. -/
theorem C8_counterexample :
    crun chanInit
      [CEvent.submit 7, CEvent.recvSubmitted, CEvent.timeout, CEvent.closeQuit] =
      some { inner := IPC.sendOut, fcur := WorkV.w 7, inBuf := none,
             inClosed := false, outClosed := false, quitClosed := true,
             outer := OPC.select, execs := [] } ∧
    crun chanInit
      [CEvent.submit 7, CEvent.recvSubmitted, CEvent.timeout, CEvent.closeQuit,
       CEvent.handoff] =
      some { inner := IPC.recvIn, fcur := WorkV.w 7, inBuf := none,
             inClosed := false, outClosed := false, quitClosed := true,
             outer := OPC.select, execs := [WorkV.w 7] } := by decide

/-- Claim C8 as amended: once the dispatching (outer) goroutine has itself
observed the quit signal — taken its `<-quit` case and returned — no work of
any kind executes on any continuation of the run: pending deferred work is
discarded, never flushed.  And closing `quit` when nothing is pending is a
harmless no-op: both goroutines simply return, with nothing ever executed.
(Only a handoff already racing with the close, as in the counterexample, can
still execute one pending work after the close.) -/
theorem C8_shutdownDiscards :
    (∀ (s : ChanSt) (es : List CEvent) (s2 : ChanSt),
      s.outer = OPC.finished → crun s es = some s2 →
      s2.execs = s.execs ∧ s2.outer = OPC.finished) ∧
    crun chanInit [CEvent.closeQuit, CEvent.innerQuit, CEvent.outerQuit] =
      some { inner := IPC.finished, fcur := WorkV.dummy, inBuf := none,
             inClosed := true, outClosed := true, quitClosed := true,
             outer := OPC.finished, execs := [] } :=
  ⟨fun s es s2 h1 h2 => crun_outer_finished es s s2 h1 h2, by decide⟩

theorem C8_shutdownDiscards_witness :
    ({ inner := IPC.sendOut, fcur := WorkV.w 3, inBuf := none,
       inClosed := true, outClosed := true, quitClosed := true,
       outer := OPC.finished, execs := [] } : ChanSt).execs =
      ({ inner := IPC.select, fcur := WorkV.w 3, inBuf := none,
         inClosed := true, outClosed := true, quitClosed := true,
         outer := OPC.finished, execs := [] } : ChanSt).execs ∧
    ({ inner := IPC.sendOut, fcur := WorkV.w 3, inBuf := none,
       inClosed := true, outClosed := true, quitClosed := true,
       outer := OPC.finished, execs := [] } : ChanSt).outer = OPC.finished :=
  C8_shutdownDiscards.1
    { inner := IPC.select, fcur := WorkV.w 3, inBuf := none,
      inClosed := true, outClosed := true, quitClosed := true,
      outer := OPC.finished, execs := [] }
    [CEvent.timeout]
    { inner := IPC.sendOut, fcur := WorkV.w 3, inBuf := none,
      inClosed := true, outClosed := true, quitClosed := true,
      outer := OPC.finished, execs := [] }
    rfl (by decide)
